import Mathlib

/-!
Verification of the annotation-matching and scoring engine of the
label-platform-ui repository (src/app/dashboard/page.tsx).

JavaScript numbers are embedded as rationals (ℚ); the JS `Set<number>` of
claimed prediction indices is embedded as `Finset ℤ` (the sentinel `-1` can
be inserted, so the element type is ℤ).  Counters incremented with `++` are
embedded as ℕ.
-/

namespace LabelPlatform

/-- The geometric part of an annotation: `{ x, y, width, height }`. -/
structure Box where
  x : ℚ
  y : ℚ
  width : ℚ
  height : ℚ
deriving DecidableEq

/-- The closed label set `"Button" | "Input" | "Radio" | "Drop"`. -/
inductive Label where
  | Button : Label
  | Input : Label
  | Radio : Label
  | Drop : Label
deriving DecidableEq

/-- The `Annotation` interface: id, geometry and label. -/
structure Annotation extends Box where
  id : String
  label : Label
deriving DecidableEq

/-- `x_overlap` of `calculateIoU`. -/
def xOverlap (box1 box2 : Box) : ℚ :=
  max 0 (min (box1.x + box1.width) (box2.x + box2.width) - max box1.x box2.x)

/-- `y_overlap` of `calculateIoU`. -/
def yOverlap (box1 box2 : Box) : ℚ :=
  max 0 (min (box1.y + box1.height) (box2.y + box2.height) - max box1.y box2.y)

/-- `intersection_area` of `calculateIoU`. -/
def intersectionArea (box1 box2 : Box) : ℚ :=
  xOverlap box1 box2 * yOverlap box1 box2

/-- `union_area` of `calculateIoU`:
`box1_area + box2_area - intersection_area`. -/
def unionArea (box1 box2 : Box) : ℚ :=
  box1.width * box1.height + box2.width * box2.height - intersectionArea box1 box2

/-- `calculateIoU`: Intersection over Union, with the explicit
`union_area === 0 ? 0 : intersection_area / union_area` guard. -/
def calculateIoU (box1 box2 : Box) : ℚ :=
  if unionArea box1 box2 = 0 then 0 else intersectionArea box1 box2 / unionArea box1 box2

/-- The `Metrics` record kept per label. -/
structure Metrics where
  total_ground_truth : ℕ
  true_positives : ℕ
  false_positives : ℕ
  false_negatives : ℕ
  precision : ℚ
  «recall» : ℚ
  f1_score : ℚ
deriving DecidableEq

/-- The all-zero record each label is initialised with. -/
def initMetrics : Metrics :=
  { total_ground_truth := 0, true_positives := 0, false_positives := 0,
    false_negatives := 0, precision := 0, «recall» := 0, f1_score := 0 }

/-- Point update of the label → metrics map at one label. -/
def updateMetrics (ms : Label → Metrics) (lab : Label) (f : Metrics → Metrics) :
    Label → Metrics :=
  fun l => if l = lab then f (ms l) else ms l

/-- The inner scan of `evaluateSingleImage`: walk the predictions from index
`i`, carrying the running `(bestIoU, bestPredIndex)` pair; a prediction is a
candidate when its label equals the ground-truth label and its index is not
in the claimed set; the running best is updated only on a strict `>`. -/
def findBestAux (gt : Annotation) (matched : Finset ℤ) :
    List Annotation → ℕ → ℚ × ℤ → ℚ × ℤ
  | [], _, best => best
  | p :: rest, i, best =>
      findBestAux gt matched rest (i + 1)
        (if p.label = gt.label ∧ (i : ℤ) ∉ matched then
          (if best.1 < calculateIoU gt.toBox p.toBox
           then (calculateIoU gt.toBox p.toBox, (i : ℤ)) else best)
         else best)

/-- The full scan, starting from `bestIoU = 0`, `bestPredIndex = -1`. -/
def findBest (gt : Annotation) (preds : List Annotation) (matched : Finset ℤ) :
    ℚ × ℤ :=
  findBestAux gt matched preds 0 (0, -1)

/-- State threaded through the ground-truth loop: the metrics map and the
`matchedPredIndices` set. -/
structure EvalState where
  metrics : Label → Metrics
  matched : Finset ℤ

/-- Body of `for (const gtBox of groundTruthAnnotations)`: bump
`total_ground_truth`, scan for the best unclaimed same-label prediction,
then either record a true positive and claim `bestPredIndex`, or record a
false negative. -/
def evalStep (preds : List Annotation) (iouThreshold : ℚ) (st : EvalState)
    (gtBox : Annotation) : EvalState :=
  let m1 := updateMetrics st.metrics gtBox.label
    (fun m => { m with total_ground_truth := m.total_ground_truth + 1 })
  let best := findBest gtBox preds st.matched
  if iouThreshold ≤ best.1 then
    { metrics := updateMetrics m1 gtBox.label
        (fun m => { m with true_positives := m.true_positives + 1 }),
      matched := insert best.2 st.matched }
  else
    { metrics := updateMetrics m1 gtBox.label
        (fun m => { m with false_negatives := m.false_negatives + 1 }),
      matched := st.matched }

/-- The ground-truth loop of `evaluateSingleImage`, started from the
all-zero metrics map and the empty claimed set. -/
def evalRun (groundTruth preds : List Annotation) (iouThreshold : ℚ) :
    EvalState :=
  List.foldl (evalStep preds iouThreshold) ⟨fun _ => initMetrics, ∅⟩ groundTruth

/-- The false-positive pass: every prediction index not in the claimed set
counts a false positive under its own label (scanning from index `i`). -/
def fpAux (matched : Finset ℤ) :
    List Annotation → ℕ → (Label → Metrics) → Label → Metrics
  | [], _, ms => ms
  | p :: rest, i, ms =>
      let ms2 :=
        if (i : ℤ) ∈ matched then ms
        else updateMetrics ms p.label
          (fun m => { m with false_positives := m.false_positives + 1 })
      fpAux matched rest (i + 1) ms2

/-- The rate derivation of `evaluateSingleImage`: precision, recall and f1
with their zero-denominator guards; f1 is computed from the just-computed
precision and recall. -/
def finalizeMetrics (m : Metrics) : Metrics :=
  let tp : ℚ := m.true_positives
  let fp : ℚ := m.false_positives
  let fn : ℚ := m.false_negatives
  let precision : ℚ := if tp + fp = 0 then 0 else tp / (tp + fp)
  let «recall» : ℚ := if tp + fn = 0 then 0 else tp / (tp + fn)
  let f1 : ℚ :=
    if precision + «recall» = 0 then 0
    else 2 * (precision * «recall») / (precision + «recall»)
  { m with precision := precision, «recall» := «recall», f1_score := f1 }

/-- `evaluateSingleImage`: ground-truth loop, false-positive pass, then the
rate derivation, returning the label → metrics map.  The source's default
for `iouThreshold` is `0.5`. -/
def evaluateSingleImage (groundTruth preds : List Annotation)
    (iouThreshold : ℚ) : Label → Metrics :=
  let st := evalRun groundTruth preds iouThreshold
  fun lab => finalizeMetrics (fpAux st.matched preds 0 st.metrics lab)

/-- Number of predictions carrying a given label. -/
def countLabel (lab : Label) (preds : List Annotation) : ℕ :=
  preds.countP (fun p => p.label = lab)

/-- The candidate condition of the inner scan: same label as the
ground-truth box and index not yet claimed. -/
def isCand (gt : Annotation) (matched : Finset ℤ) (p : Annotation)
    (idx : ℕ) : Prop :=
  p.label = gt.label ∧ (idx : ℤ) ∉ matched

/-- Number of positions of the list (counted from start index `i`) whose
index is in the claimed set and whose element carries the given label. -/
def matchedCountFrom (matched : Finset ℤ) (lab : Label) :
    List Annotation → ℕ → ℕ
  | [], _ => 0
  | p :: rest, i =>
      (if (i : ℤ) ∈ matched ∧ p.label = lab then 1 else 0)
        + matchedCountFrom matched lab rest (i + 1)

/-- Number of positions of the list (counted from start index `i`) whose
index is not in the claimed set and whose element carries the given label. -/
def unmatchedCountFrom (matched : Finset ℤ) (lab : Label) :
    List Annotation → ℕ → ℕ
  | [], _ => 0
  | p :: rest, i =>
      (if (i : ℤ) ∉ matched ∧ p.label = lab then 1 else 0)
        + unmatchedCountFrom matched lab rest (i + 1)

/-- Two annotations agreeing on `x`, `y`, `width`, `height` and `label`
(their `id` fields may differ). -/
def SameBoxLabel (a b : Annotation) : Prop :=
  a.x = b.x ∧ a.y = b.y ∧ a.width = b.width ∧ a.height = b.height ∧
    a.label = b.label

/-- A sample annotation used in closed-instance statements. -/
def sampleAnn (s : String) (x y w h : ℚ) (lab : Label) : Annotation :=
  { x := x, y := y, width := w, height := h, id := s, label := lab }

/-! ### Basic lemmas about the geometric part -/

lemma xOverlap_nonneg (a b : Box) : 0 ≤ xOverlap a b := le_max_left 0 _

lemma yOverlap_nonneg (a b : Box) : 0 ≤ yOverlap a b := le_max_left 0 _

lemma intersectionArea_nonneg (a b : Box) : 0 ≤ intersectionArea a b :=
  mul_nonneg (xOverlap_nonneg a b) (yOverlap_nonneg a b)

lemma xOverlap_comm (a b : Box) : xOverlap a b = xOverlap b a := by
  unfold xOverlap
  rw [min_comm (a.x + a.width) (b.x + b.width), max_comm a.x b.x]

lemma yOverlap_comm (a b : Box) : yOverlap a b = yOverlap b a := by
  unfold yOverlap
  rw [min_comm (a.y + a.height) (b.y + b.height), max_comm a.y b.y]

lemma intersectionArea_comm (a b : Box) :
    intersectionArea a b = intersectionArea b a := by
  unfold intersectionArea
  rw [xOverlap_comm, yOverlap_comm]

lemma unionArea_comm (a b : Box) : unionArea a b = unionArea b a := by
  unfold unionArea
  rw [intersectionArea_comm]
  ring

/-- C7: `calculateIoU` is symmetric:
`computeOverlap(a,b) == computeOverlap(b,a)` for all boxes. -/
theorem calculateIoU_comm (a b : Box) : calculateIoU a b = calculateIoU b a := by
  unfold calculateIoU
  rw [unionArea_comm, intersectionArea_comm]

/-- C3: for all boxes, degenerate ones included, the IoU lies in `[0, 1]`. -/
theorem calculateIoU_bounds (a b : Box) :
    0 ≤ calculateIoU a b ∧ calculateIoU a b ≤ 1 := by
  have hxo : 0 ≤ xOverlap a b := xOverlap_nonneg a b
  have hyo : 0 ≤ yOverlap a b := yOverlap_nonneg a b
  have hI : 0 ≤ intersectionArea a b := intersectionArea_nonneg a b
  unfold calculateIoU
  by_cases hU : unionArea a b = 0
  · rw [if_pos hU]
    norm_num
  · rw [if_neg hU]
    rcases hI.lt_or_eq with hIpos | hIzero
    · -- positive intersection: both boxes have positive extent on both axes
      have hxopos : 0 < xOverlap a b := by
        rcases hxo.lt_or_eq with h | h
        · exact h
        · exfalso
          rw [intersectionArea, ← h, zero_mul] at hIpos
          exact lt_irrefl 0 hIpos
      have hyopos : 0 < yOverlap a b := by
        rcases hyo.lt_or_eq with h | h
        · exact h
        · exfalso
          rw [intersectionArea, ← h, mul_zero] at hIpos
          exact lt_irrefl 0 hIpos
      have hvx : 0 < min (a.x + a.width) (b.x + b.width) - max a.x b.x := by
        by_contra hle
        push_neg at hle
        have hz : xOverlap a b = 0 := by
          unfold xOverlap
          exact max_eq_left hle
        rw [hz] at hxopos
        exact lt_irrefl 0 hxopos
      have hvy : 0 < min (a.y + a.height) (b.y + b.height) - max a.y b.y := by
        by_contra hle
        push_neg at hle
        have hz : yOverlap a b = 0 := by
          unfold yOverlap
          exact max_eq_left hle
        rw [hz] at hyopos
        exact lt_irrefl 0 hyopos
      have hxoeq : xOverlap a b
          = min (a.x + a.width) (b.x + b.width) - max a.x b.x := by
        unfold xOverlap
        exact max_eq_right hvx.le
      have hyoeq : yOverlap a b
          = min (a.y + a.height) (b.y + b.height) - max a.y b.y := by
        unfold yOverlap
        exact max_eq_right hvy.le
      have hminx1 : min (a.x + a.width) (b.x + b.width) ≤ a.x + a.width :=
        min_le_left _ _
      have hminx2 : min (a.x + a.width) (b.x + b.width) ≤ b.x + b.width :=
        min_le_right _ _
      have hmaxx1 : a.x ≤ max a.x b.x := le_max_left _ _
      have hmaxx2 : b.x ≤ max a.x b.x := le_max_right _ _
      have hminy1 : min (a.y + a.height) (b.y + b.height) ≤ a.y + a.height :=
        min_le_left _ _
      have hminy2 : min (a.y + a.height) (b.y + b.height) ≤ b.y + b.height :=
        min_le_right _ _
      have hmaxy1 : a.y ≤ max a.y b.y := le_max_left _ _
      have hmaxy2 : b.y ≤ max a.y b.y := le_max_right _ _
      have hwa : xOverlap a b ≤ a.width := by rw [hxoeq]; linarith
      have hwb : xOverlap a b ≤ b.width := by rw [hxoeq]; linarith
      have hha : yOverlap a b ≤ a.height := by rw [hyoeq]; linarith
      have hhb : yOverlap a b ≤ b.height := by rw [hyoeq]; linarith
      have hA1 : intersectionArea a b ≤ a.width * a.height := by
        rw [intersectionArea]
        exact mul_le_mul hwa hha hyo (le_trans hxopos.le hwa)
      have hA2 : intersectionArea a b ≤ b.width * b.height := by
        rw [intersectionArea]
        exact mul_le_mul hwb hhb hyo (le_trans hxopos.le hwb)
      have hApos : 0 < a.width * a.height := lt_of_lt_of_le hIpos hA1
      have hUpos : 0 < unionArea a b := by
        unfold unionArea
        linarith
      constructor
      · exact div_nonneg hI hUpos.le
      · rw [div_le_one hUpos]
        unfold unionArea
        linarith
    · -- zero intersection: the quotient is 0 whatever the union is
      rw [← hIzero, zero_div]
      norm_num

/-! ### Lemmas about `finalizeMetrics` -/

lemma finalizeMetrics_total (m : Metrics) :
    (finalizeMetrics m).total_ground_truth = m.total_ground_truth := rfl

lemma finalizeMetrics_tp (m : Metrics) :
    (finalizeMetrics m).true_positives = m.true_positives := rfl

lemma finalizeMetrics_fp (m : Metrics) :
    (finalizeMetrics m).false_positives = m.false_positives := rfl

lemma finalizeMetrics_fn (m : Metrics) :
    (finalizeMetrics m).false_negatives = m.false_negatives := rfl

lemma finalizeMetrics_precision (m : Metrics) :
    (finalizeMetrics m).precision =
      if m.true_positives + m.false_positives = 0 then 0
      else (m.true_positives : ℚ)
        / ((m.true_positives : ℚ) + (m.false_positives : ℚ)) := by
  show (if (m.true_positives : ℚ) + (m.false_positives : ℚ) = 0 then (0:ℚ)
        else (m.true_positives : ℚ)
          / ((m.true_positives : ℚ) + (m.false_positives : ℚ))) = _
  by_cases h : m.true_positives + m.false_positives = 0
  · have hc : ((m.true_positives : ℚ) + (m.false_positives : ℚ)) = 0 := by
      exact_mod_cast congrArg (Nat.cast : ℕ → ℚ) h
    rw [if_pos hc, if_pos h]
  · have hc : ((m.true_positives : ℚ) + (m.false_positives : ℚ)) ≠ 0 := by
      intro hc
      exact h (by exact_mod_cast hc)
    rw [if_neg hc, if_neg h]

lemma finalizeMetrics_recall (m : Metrics) :
    (finalizeMetrics m).«recall» =
      if m.true_positives + m.false_negatives = 0 then 0
      else (m.true_positives : ℚ)
        / ((m.true_positives : ℚ) + (m.false_negatives : ℚ)) := by
  show (if (m.true_positives : ℚ) + (m.false_negatives : ℚ) = 0 then (0:ℚ)
        else (m.true_positives : ℚ)
          / ((m.true_positives : ℚ) + (m.false_negatives : ℚ))) = _
  by_cases h : m.true_positives + m.false_negatives = 0
  · have hc : ((m.true_positives : ℚ) + (m.false_negatives : ℚ)) = 0 := by
      exact_mod_cast congrArg (Nat.cast : ℕ → ℚ) h
    rw [if_pos hc, if_pos h]
  · have hc : ((m.true_positives : ℚ) + (m.false_negatives : ℚ)) ≠ 0 := by
      intro hc
      exact h (by exact_mod_cast hc)
    rw [if_neg hc, if_neg h]

lemma finalizeMetrics_f1 (m : Metrics) :
    (finalizeMetrics m).f1_score =
      if (finalizeMetrics m).precision + (finalizeMetrics m).«recall» = 0 then 0
      else 2 * ((finalizeMetrics m).precision * (finalizeMetrics m).«recall»)
        / ((finalizeMetrics m).precision + (finalizeMetrics m).«recall») := rfl

lemma evaluateSingleImage_eq_finalize (g p : List Annotation) (t : ℚ)
    (lab : Label) :
    evaluateSingleImage g p t lab =
      finalizeMetrics
        (fpAux (evalRun g p t).matched p 0 (evalRun g p t).metrics lab) := rfl

/-- C5: the derived rates satisfy the three guarded formulas, f1 being
computed from the already-derived precision and recall of the same label. -/
theorem derived_rates_formula (g p : List Annotation) (t : ℚ) (lab : Label) :
    ((evaluateSingleImage g p t lab).precision =
      if (evaluateSingleImage g p t lab).true_positives
          + (evaluateSingleImage g p t lab).false_positives = 0 then 0
      else ((evaluateSingleImage g p t lab).true_positives : ℚ)
        / (((evaluateSingleImage g p t lab).true_positives : ℚ)
          + ((evaluateSingleImage g p t lab).false_positives : ℚ))) ∧
    ((evaluateSingleImage g p t lab).«recall» =
      if (evaluateSingleImage g p t lab).true_positives
          + (evaluateSingleImage g p t lab).false_negatives = 0 then 0
      else ((evaluateSingleImage g p t lab).true_positives : ℚ)
        / (((evaluateSingleImage g p t lab).true_positives : ℚ)
          + ((evaluateSingleImage g p t lab).false_negatives : ℚ))) ∧
    ((evaluateSingleImage g p t lab).f1_score =
      if (evaluateSingleImage g p t lab).precision
          + (evaluateSingleImage g p t lab).«recall» = 0 then 0
      else 2 * ((evaluateSingleImage g p t lab).precision
          * (evaluateSingleImage g p t lab).«recall»)
        / ((evaluateSingleImage g p t lab).precision
          + (evaluateSingleImage g p t lab).«recall»)) := by
  refine ⟨?_, ?_, ?_⟩
  · rw [evaluateSingleImage_eq_finalize, finalizeMetrics_precision,
      finalizeMetrics_tp, finalizeMetrics_fp]
  · rw [evaluateSingleImage_eq_finalize, finalizeMetrics_recall,
      finalizeMetrics_tp, finalizeMetrics_fn]
  · rw [evaluateSingleImage_eq_finalize]
    exact finalizeMetrics_f1 _

/-- C6: every division in the core is guarded: a zero union area makes the
IoU a defined `0`, and the zero-denominator cases of precision, recall and
f1 all yield the defined value `0`. -/
theorem division_by_zero_guards :
    (∀ a b : Box, unionArea a b = 0 → calculateIoU a b = 0) ∧
    (∀ (g p : List Annotation) (t : ℚ) (lab : Label),
      ((evaluateSingleImage g p t lab).true_positives
          + (evaluateSingleImage g p t lab).false_positives = 0 →
        (evaluateSingleImage g p t lab).precision = 0) ∧
      ((evaluateSingleImage g p t lab).true_positives
          + (evaluateSingleImage g p t lab).false_negatives = 0 →
        (evaluateSingleImage g p t lab).«recall» = 0) ∧
      ((evaluateSingleImage g p t lab).precision
          + (evaluateSingleImage g p t lab).«recall» = 0 →
        (evaluateSingleImage g p t lab).f1_score = 0)) := by
  constructor
  · intro a b hU
    unfold calculateIoU
    rw [if_pos hU]
  · intro g p t lab
    refine ⟨fun h => ?_, fun h => ?_, fun h => ?_⟩
    · rw [evaluateSingleImage_eq_finalize] at h ⊢
      rw [finalizeMetrics_tp, finalizeMetrics_fp] at h
      rw [finalizeMetrics_precision, if_pos h]
    · rw [evaluateSingleImage_eq_finalize] at h ⊢
      rw [finalizeMetrics_tp, finalizeMetrics_fn] at h
      rw [finalizeMetrics_recall, if_pos h]
    · rw [evaluateSingleImage_eq_finalize] at h ⊢
      rw [finalizeMetrics_f1, if_pos h]

/-! ### Characterisation of the inner best-candidate scan -/

lemma findBestAux_spec (gt : Annotation) (matched : Finset ℤ)
    (l : List Annotation) :
    ∀ (i : ℕ) (best : ℚ × ℤ), best.2 < (i : ℤ) →
      best.1 ≤ (findBestAux gt matched l i best).1 ∧
      (findBestAux gt matched l i best).2 < (i : ℤ) + l.length ∧
      (findBestAux gt matched l i best = best ∨
        ∃ (j : ℕ) (hj : j < l.length),
          isCand gt matched (l.get ⟨j, hj⟩) (i + j) ∧
          (findBestAux gt matched l i best).1
            = calculateIoU gt.toBox (l.get ⟨j, hj⟩).toBox ∧
          (findBestAux gt matched l i best).2 = ((i + j : ℕ) : ℤ) ∧
          best.1 < (findBestAux gt matched l i best).1) ∧
      (∀ (j : ℕ) (hj : j < l.length),
        isCand gt matched (l.get ⟨j, hj⟩) (i + j) →
        calculateIoU gt.toBox (l.get ⟨j, hj⟩).toBox
          ≤ (findBestAux gt matched l i best).1) ∧
      (∀ (j : ℕ) (hj : j < l.length),
        isCand gt matched (l.get ⟨j, hj⟩) (i + j) →
        ((i + j : ℕ) : ℤ) < (findBestAux gt matched l i best).2 →
        calculateIoU gt.toBox (l.get ⟨j, hj⟩).toBox
          < (findBestAux gt matched l i best).1) := by
  induction l with
  | nil =>
      intro i best hlt
      refine ⟨le_refl _, ?_, Or.inl rfl, ?_, ?_⟩
      · simpa [findBestAux] using hlt
      · intro j hj
        exact absurd hj (Nat.not_lt_zero j)
      · intro j hj
        exact absurd hj (Nat.not_lt_zero j)
  | cons p rest ih =>
      intro i best hlt
      by_cases hc : p.label = gt.label ∧ (i : ℤ) ∉ matched
      · by_cases hup : best.1 < calculateIoU gt.toBox p.toBox
        · -- the scan updates the running best to (iou p, i)
          have heq : findBestAux gt matched (p :: rest) i best
              = findBestAux gt matched rest (i + 1)
                  (calculateIoU gt.toBox p.toBox, (i : ℤ)) := by
            simp only [findBestAux, if_pos hc, if_pos hup]
          have hlt2 : ((calculateIoU gt.toBox p.toBox, (i : ℤ)) : ℚ × ℤ).2
              < ((i + 1 : ℕ) : ℤ) := by
            push_cast
            omega
          obtain ⟨ih1, ih2, ih3, ih4, ih5⟩ :=
            ih (i + 1) (calculateIoU gt.toBox p.toBox, (i : ℤ)) hlt2
          rw [heq]
          refine ⟨le_trans hup.le ih1, ?_, ?_, ?_, ?_⟩
          · have := ih2
            push_cast at this ⊢
            simp only [List.length_cons]
            push_cast
            linarith
          · rcases ih3 with h3 | ⟨j, hj, hcand, h1, h2, h3⟩
            · refine Or.inr ⟨0, by simp, ?_, ?_, ?_, ?_⟩
              · simpa [isCand] using hc
              · rw [h3]
                simp
              · rw [h3]
                push_cast
                ring
              · rw [h3]
                exact hup
            · refine Or.inr ⟨j + 1, by simpa using hj, ?_, ?_, ?_, ?_⟩
              · simpa [Nat.add_comm, Nat.add_assoc, Nat.add_left_comm]
                  using hcand
              · simpa using h1
              · rw [h2]
                push_cast
                ring
              · exact lt_trans hup h3
          · intro j hj hcand
            rcases j with _ | j
            · simpa using ih1
            · refine ih4 j (by simpa using hj) ?_
              simpa [Nat.add_comm, Nat.add_assoc, Nat.add_left_comm]
                using hcand
          · intro j hj hcand hjlt
            rcases j with _ | j
            · -- position i itself: only relevant when a later index was chosen
              rcases ih3 with h3 | ⟨k, hk, hkc, h1, h2, h3⟩
              · rw [h3] at hjlt
                push_cast at hjlt
                omega
              · simpa using h3
            · refine ih5 j (by simpa using hj) ?_ ?_
              · simpa [Nat.add_comm, Nat.add_assoc, Nat.add_left_comm]
                  using hcand
              · have := hjlt
                push_cast at this ⊢
                linarith
        · -- candidate but not strictly better: running best unchanged
          have heq : findBestAux gt matched (p :: rest) i best
              = findBestAux gt matched rest (i + 1) best := by
            simp only [findBestAux, if_pos hc, if_neg hup]
          have hlt2 : best.2 < ((i + 1 : ℕ) : ℤ) := by
            push_cast
            omega
          obtain ⟨ih1, ih2, ih3, ih4, ih5⟩ := ih (i + 1) best hlt2
          rw [heq]
          push_neg at hup
          refine ⟨ih1, ?_, ?_, ?_, ?_⟩
          · have := ih2
            simp only [List.length_cons]
            push_cast at this ⊢
            linarith
          · rcases ih3 with h3 | ⟨j, hj, hcand, h1, h2, h3⟩
            · exact Or.inl h3
            · refine Or.inr ⟨j + 1, by simpa using hj, ?_, ?_, ?_, h3⟩
              · simpa [Nat.add_comm, Nat.add_assoc, Nat.add_left_comm]
                  using hcand
              · simpa using h1
              · rw [h2]
                push_cast
                ring
          · intro j hj hcand
            rcases j with _ | j
            · exact le_trans hup ih1
            · refine ih4 j (by simpa using hj) ?_
              simpa [Nat.add_comm, Nat.add_assoc, Nat.add_left_comm]
                using hcand
          · intro j hj hcand hjlt
            rcases j with _ | j
            · rcases ih3 with h3 | ⟨k, hk, hkc, h1, h2, h3⟩
              · rw [h3] at hjlt
                push_cast at hjlt
                omega
              · simpa using lt_of_le_of_lt hup h3
            · refine ih5 j (by simpa using hj) ?_ ?_
              · simpa [Nat.add_comm, Nat.add_assoc, Nat.add_left_comm]
                  using hcand
              · have := hjlt
                push_cast at this ⊢
                linarith
      · -- not a candidate: the scan skips position i
        have heq : findBestAux gt matched (p :: rest) i best
            = findBestAux gt matched rest (i + 1) best := by
          simp only [findBestAux, if_neg hc]
        have hlt2 : best.2 < ((i + 1 : ℕ) : ℤ) := by
          push_cast
          omega
        obtain ⟨ih1, ih2, ih3, ih4, ih5⟩ := ih (i + 1) best hlt2
        rw [heq]
        refine ⟨ih1, ?_, ?_, ?_, ?_⟩
        · have := ih2
          simp only [List.length_cons]
          push_cast at this ⊢
          linarith
        · rcases ih3 with h3 | ⟨j, hj, hcand, h1, h2, h3⟩
          · exact Or.inl h3
          · refine Or.inr ⟨j + 1, by simpa using hj, ?_, ?_, ?_, h3⟩
            · simpa [Nat.add_comm, Nat.add_assoc, Nat.add_left_comm]
                using hcand
            · simpa using h1
            · rw [h2]
              push_cast
              ring
        · intro j hj hcand
          rcases j with _ | j
          · exact absurd (by simpa [isCand] using hcand) hc
          · refine ih4 j (by simpa using hj) ?_
            simpa [Nat.add_comm, Nat.add_assoc, Nat.add_left_comm]
              using hcand
        · intro j hj hcand hjlt
          rcases j with _ | j
          · exact absurd (by simpa [isCand] using hcand) hc
          · refine ih5 j (by simpa using hj) ?_ ?_
            · simpa [Nat.add_comm, Nat.add_assoc, Nat.add_left_comm]
                using hcand
            · have := hjlt
              push_cast at this ⊢
              linarith

lemma findBest_spec (gt : Annotation) (preds : List Annotation)
    (matched : Finset ℤ) :
    0 ≤ (findBest gt preds matched).1 ∧
    (findBest gt preds matched).2 < (preds.length : ℤ) ∧
    (findBest gt preds matched = (0, -1) ∨
      ∃ (j : ℕ) (hj : j < preds.length),
        isCand gt matched (preds.get ⟨j, hj⟩) j ∧
        (findBest gt preds matched).1
          = calculateIoU gt.toBox (preds.get ⟨j, hj⟩).toBox ∧
        (findBest gt preds matched).2 = (j : ℤ) ∧
        0 < (findBest gt preds matched).1) ∧
    (∀ (j : ℕ) (hj : j < preds.length),
      isCand gt matched (preds.get ⟨j, hj⟩) j →
      calculateIoU gt.toBox (preds.get ⟨j, hj⟩).toBox
        ≤ (findBest gt preds matched).1) ∧
    (∀ (j : ℕ) (hj : j < preds.length),
      isCand gt matched (preds.get ⟨j, hj⟩) j →
      (j : ℤ) < (findBest gt preds matched).2 →
      calculateIoU gt.toBox (preds.get ⟨j, hj⟩).toBox
        < (findBest gt preds matched).1) := by
  have h := findBestAux_spec gt matched preds 0 (0, -1) (by norm_num)
  obtain ⟨h1, h2, h3, h4, h5⟩ := h
  refine ⟨h1, by simpa using h2, ?_, ?_, ?_⟩
  · rcases h3 with h3 | ⟨j, hj, hcand, ha, hb, hcpos⟩
    · exact Or.inl h3
    · refine Or.inr ⟨j, hj, ?_, ha, ?_, ?_⟩
      · simpa using hcand
      · simpa using hb
      · simpa using hcpos
  · intro j hj hcand
    exact h4 j hj (by simpa using hcand)
  · intro j hj hcand hjlt
    exact h5 j hj (by simpa using hcand) (by simpa using hjlt)

/-! ### Lemmas about the ground-truth loop -/

lemma evalStep_matched_mono (preds : List Annotation) (t : ℚ)
    (st : EvalState) (g : Annotation) :
    st.matched ⊆ (evalStep preds t st g).matched := by
  simp only [evalStep]
  split
  · exact Finset.subset_insert _ _
  · exact Finset.Subset.refl _

lemma foldl_matched_mono (preds : List Annotation) (t : ℚ) :
    ∀ (l : List Annotation) (st : EvalState),
      st.matched ⊆ (List.foldl (evalStep preds t) st l).matched := by
  intro l
  induction l with
  | nil => intro st; simp
  | cons g rest ih =>
      intro st
      exact Finset.Subset.trans (evalStep_matched_mono preds t st g)
        (by simpa using ih (evalStep preds t st g))

lemma evalRun_total_eq (preds : List Annotation) (t : ℚ) :
    ∀ (l : List Annotation) (st : EvalState),
    (∀ lab, (st.metrics lab).total_ground_truth
      = (st.metrics lab).true_positives + (st.metrics lab).false_negatives) →
    ∀ lab, ((List.foldl (evalStep preds t) st l).metrics lab).total_ground_truth
      = ((List.foldl (evalStep preds t) st l).metrics lab).true_positives
        + ((List.foldl (evalStep preds t) st l).metrics lab).false_negatives := by
  intro l
  induction l with
  | nil => intro st h; simpa using h
  | cons g rest ih =>
      intro st h
      rw [List.foldl_cons]
      refine ih (evalStep preds t st g) ?_
      intro lab
      have hl := h lab
      have hg := h g.label
      simp only [evalStep]
      split <;> by_cases hlg : lab = g.label <;>
        simp [updateMetrics, hlg] <;> omega

lemma evalRun_fp_eq (preds : List Annotation) (t : ℚ) :
    ∀ (l : List Annotation) (st : EvalState) (lab : Label),
    ((List.foldl (evalStep preds t) st l).metrics lab).false_positives
      = (st.metrics lab).false_positives := by
  intro l
  induction l with
  | nil => intro st lab; simp
  | cons g rest ih =>
      intro st lab
      rw [List.foldl_cons, ih (evalStep preds t st g) lab]
      simp only [evalStep]
      split <;> by_cases hlg : lab = g.label <;> simp [updateMetrics, hlg]

lemma fpAux_keeps (matched : Finset ℤ) :
    ∀ (l : List Annotation) (i : ℕ) (ms : Label → Metrics) (lab : Label),
    (fpAux matched l i ms lab).true_positives = (ms lab).true_positives ∧
    (fpAux matched l i ms lab).false_negatives = (ms lab).false_negatives ∧
    (fpAux matched l i ms lab).total_ground_truth
      = (ms lab).total_ground_truth := by
  intro l
  induction l with
  | nil => intro i ms lab; simp [fpAux]
  | cons p rest ih =>
      intro i ms lab
      simp only [fpAux]
      split
      · exact ih (i + 1) ms lab
      · obtain ⟨h1, h2, h3⟩ := ih (i + 1)
          (updateMetrics ms p.label
            (fun m => { m with false_positives := m.false_positives + 1 })) lab
        rw [h1, h2, h3]
        by_cases hlg : lab = p.label <;> simp [updateMetrics, hlg]

lemma fpAux_fp (matched : Finset ℤ) :
    ∀ (l : List Annotation) (i : ℕ) (ms : Label → Metrics) (lab : Label),
    (fpAux matched l i ms lab).false_positives
      = (ms lab).false_positives + unmatchedCountFrom matched lab l i := by
  intro l
  induction l with
  | nil => intro i ms lab; simp [fpAux, unmatchedCountFrom]
  | cons p rest ih =>
      intro i ms lab
      simp only [fpAux, unmatchedCountFrom]
      by_cases hm : (i : ℤ) ∈ matched
      · rw [if_pos hm, ih (i + 1) ms lab]
        have : ¬((i : ℤ) ∉ matched ∧ p.label = lab) := fun h => h.1 hm
        rw [if_neg this]
        omega
      · rw [if_neg hm, ih (i + 1) _ lab]
        by_cases hlg : p.label = lab
        · have hc : (i : ℤ) ∉ matched ∧ p.label = lab := ⟨hm, hlg⟩
          rw [if_pos hc]
          simp [updateMetrics, hlg.symm]
          omega
        · have hc : ¬((i : ℤ) ∉ matched ∧ p.label = lab) := fun h => hlg h.2
          rw [if_neg hc]
          have hne : lab ≠ p.label := fun h => hlg h.symm
          simp [updateMetrics, hne]

lemma matched_add_unmatched (matched : Finset ℤ) (lab : Label) :
    ∀ (l : List Annotation) (i : ℕ),
    matchedCountFrom matched lab l i + unmatchedCountFrom matched lab l i
      = countLabel lab l := by
  intro l
  induction l with
  | nil => intro i; simp [matchedCountFrom, unmatchedCountFrom, countLabel]
  | cons p rest ih =>
      intro i
      simp only [matchedCountFrom, unmatchedCountFrom, countLabel,
        List.countP_cons]
      have hrest := ih (i + 1)
      rw [countLabel] at hrest
      by_cases hm : (i : ℤ) ∈ matched <;> by_cases hlg : p.label = lab <;>
        simp [hm, hlg] <;> omega

lemma matchedCountFrom_empty (lab : Label) :
    ∀ (l : List Annotation) (i : ℕ),
    matchedCountFrom (∅ : Finset ℤ) lab l i = 0 := by
  intro l
  induction l with
  | nil => intro i; simp [matchedCountFrom]
  | cons p rest ih => intro i; simp [matchedCountFrom, ih (i + 1)]

lemma matchedCountFrom_insert_out (m : Finset ℤ) (lab : Label) (k : ℤ) :
    ∀ (l : List Annotation) (i : ℕ),
    (k < (i : ℤ) ∨ (i : ℤ) + l.length ≤ k) →
    matchedCountFrom (insert k m) lab l i = matchedCountFrom m lab l i := by
  intro l
  induction l with
  | nil => intro i h; simp [matchedCountFrom]
  | cons p rest ih =>
      intro i h
      simp only [List.length_cons] at h
      have hik : (i : ℤ) ≠ k := by
        push_cast at h
        omega
      simp only [matchedCountFrom]
      rw [ih (i + 1) (by push_cast at h ⊢; omega)]
      simp [Finset.mem_insert, hik]

lemma matchedCountFrom_insert_in (m : Finset ℤ) (lab : Label) :
    ∀ (l : List Annotation) (d i : ℕ) (hd : d < l.length),
    ((i + d : ℕ) : ℤ) ∉ m →
    matchedCountFrom (insert ((i + d : ℕ) : ℤ) m) lab l i
      = matchedCountFrom m lab l i
        + (if (l.get ⟨d, hd⟩).label = lab then 1 else 0) := by
  intro l
  induction l with
  | nil =>
      intro d i hd
      exact absurd hd (Nat.not_lt_zero d)
  | cons p rest ih =>
      intro d i hd hnm
      rcases d with _ | d
      · -- the inserted index is the current position
        have hk : ((i + 0 : ℕ) : ℤ) = (i : ℤ) := by push_cast; ring
        rw [hk] at hnm ⊢
        simp only [matchedCountFrom, List.get]
        rw [matchedCountFrom_insert_out m lab (i : ℤ) rest (i + 1)
          (Or.inl (by push_cast; omega))]
        have hin : (i : ℤ) ∈ insert (i : ℤ) m := Finset.mem_insert_self _ _
        have hout : ¬((i : ℤ) ∈ m ∧ p.label = lab) := fun h => hnm h.1
        rw [if_neg hout]
        by_cases hlg : p.label = lab
        · rw [if_pos ⟨hin, hlg⟩, if_pos hlg]
          omega
        · rw [if_neg (fun h : (i : ℤ) ∈ insert (i : ℤ) m ∧ p.label = lab
            => hlg h.2), if_neg hlg]
          omega
      · -- the inserted index lies in the tail
        have hstep : ((i + (d + 1) : ℕ) : ℤ) = (((i + 1) + d : ℕ) : ℤ) := by
          push_cast
          ring
        have hne : (i : ℤ) ≠ (((i + 1) + d : ℕ) : ℤ) := by
          push_cast
          omega
        rw [hstep] at hnm ⊢
        simp only [matchedCountFrom, List.get]
        rw [ih d (i + 1) (by simpa using hd) hnm]
        by_cases hm : (i : ℤ) ∈ m
        · have h1 : (i : ℤ) ∈ insert (((i + 1) + d : ℕ) : ℤ) m :=
            Finset.mem_insert_of_mem hm
          by_cases hpl : p.label = lab
          · have e1 : (i : ℤ) ∈ insert (((i + 1) + d : ℕ) : ℤ) m
                ∧ p.label = lab := ⟨h1, hpl⟩
            have e2 : (i : ℤ) ∈ m ∧ p.label = lab := ⟨hm, hpl⟩
            rw [if_pos e1, if_pos e2]
            omega
          · rw [if_neg (fun h : (i : ℤ) ∈ insert (((i + 1) + d : ℕ) : ℤ) m
                ∧ p.label = lab => hpl h.2),
              if_neg (fun h : (i : ℤ) ∈ m ∧ p.label = lab => hpl h.2)]
            omega
        · have h1 : (i : ℤ) ∉ insert (((i + 1) + d : ℕ) : ℤ) m := by
            rw [Finset.mem_insert]
            push_neg
            exact ⟨hne, hm⟩
          rw [if_neg (fun h : (i : ℤ) ∈ insert (((i + 1) + d : ℕ) : ℤ) m
              ∧ p.label = lab => h1 h.1),
            if_neg (fun h : (i : ℤ) ∈ m ∧ p.label = lab => hm h.1)]
          omega

/-- Loop invariant for a positive threshold: each true positive of a label
corresponds to exactly one claimed prediction index of that label, and every
claimed index is a genuine position of the predictions list. -/
lemma evalRun_tp_count (preds : List Annotation) (t : ℚ) (ht : 0 < t) :
    ∀ (l : List Annotation) (st : EvalState),
    (∀ x ∈ st.matched, 0 ≤ x ∧ x < (preds.length : ℤ)) →
    (∀ lab, (st.metrics lab).true_positives
      = matchedCountFrom st.matched lab preds 0) →
    (∀ x ∈ (List.foldl (evalStep preds t) st l).matched,
      0 ≤ x ∧ x < (preds.length : ℤ)) ∧
    (∀ lab, ((List.foldl (evalStep preds t) st l).metrics lab).true_positives
      = matchedCountFrom (List.foldl (evalStep preds t) st l).matched lab
          preds 0) := by
  intro l
  induction l with
  | nil =>
      intro st h1 h2
      exact ⟨by simpa using h1, by simpa using h2⟩
  | cons g rest ih =>
      intro st h1 h2
      rw [List.foldl_cons]
      refine ih (evalStep preds t st g) ?_ ?_
      all_goals
        obtain ⟨hb1, hb2, hb3, hb4, hb5⟩ := findBest_spec g preds st.matched
      · -- claimed indices stay inside the predictions range
        intro x hx
        simp only [evalStep] at hx
        split at hx
        · rcases hb3 with hnone | ⟨j, hj, hcand, hr1, hr2, hrpos⟩
          · exfalso
            rename_i hbr
            rw [hnone] at hbr
            exact absurd (lt_of_lt_of_le ht hbr) (by norm_num)
          · simp only [Finset.mem_insert] at hx
            rcases hx with hx | hx
            · rw [hx, hr2]
              constructor
              · exact Int.natCast_nonneg j
              · exact_mod_cast hj
            · exact h1 x hx
        · exact h1 x hx
      · -- true positives count the claimed indices of the label
        intro lab
        simp only [evalStep]
        split
        · rcases hb3 with hnone | ⟨j, hj, hcand, hr1, hr2, hrpos⟩
          · exfalso
            rename_i hbr
            rw [hnone] at hbr
            exact absurd (lt_of_lt_of_le ht hbr) (by norm_num)
          · rw [hr2]
            have hjm : ((0 + j : ℕ) : ℤ) ∉ st.matched := by
              simpa using hcand.2
            have hins := matchedCountFrom_insert_in st.matched lab preds j 0
              hj hjm
            simp only [Nat.zero_add] at hins
            have hgl : (preds.get ⟨j, hj⟩).label = g.label := hcand.1
            rw [hins, hgl]
            by_cases hlg : lab = g.label
            · subst hlg
              have h2l := h2 g.label
              simp [updateMetrics]
              omega
            · have hgl2 : ¬(g.label = lab) := fun h => hlg h.symm
              have h2l := h2 lab
              simp [updateMetrics, hlg, hgl2]
              omega
        · have h2l := h2 lab
          have h2g := h2 g.label
          by_cases hlg : lab = g.label <;> simp [updateMetrics, hlg] <;>
            omega

lemma evalRun_fp_zero (g p : List Annotation) (t : ℚ) (lab : Label) :
    ((evalRun g p t).metrics lab).false_positives = 0 := by
  show ((List.foldl (evalStep p t) ⟨fun _ => initMetrics, ∅⟩ g).metrics
    lab).false_positives = 0
  rw [evalRun_fp_eq]
  rfl

lemma evalRun_total (g p : List Annotation) (t : ℚ) (lab : Label) :
    ((evalRun g p t).metrics lab).total_ground_truth
      = ((evalRun g p t).metrics lab).true_positives
        + ((evalRun g p t).metrics lab).false_negatives := by
  show ((List.foldl (evalStep p t) ⟨fun _ => initMetrics, ∅⟩ g).metrics
      lab).total_ground_truth = _
  exact evalRun_total_eq p t g ⟨fun _ => initMetrics, ∅⟩ (fun _ => rfl) lab

lemma evalRun_count (g p : List Annotation) (t : ℚ) (ht : 0 < t) :
    (∀ x ∈ (evalRun g p t).matched, 0 ≤ x ∧ x < (p.length : ℤ)) ∧
    (∀ lab, ((evalRun g p t).metrics lab).true_positives
      = matchedCountFrom (evalRun g p t).matched lab p 0) := by
  show (∀ x ∈ (List.foldl (evalStep p t) ⟨fun _ => initMetrics, ∅⟩
      g).matched, 0 ≤ x ∧ x < (p.length : ℤ)) ∧ _
  exact evalRun_tp_count p t ht g ⟨fun _ => initMetrics, ∅⟩
    (fun x hx => absurd hx (Finset.not_mem_empty x))
    (fun lab2 => (matchedCountFrom_empty lab2 p 0).symm)

/-- C1 (amended): `total_ground_truth = tp + fn` holds for every threshold,
and for every positive threshold the predictions of a label are partitioned
into true positives and false positives. -/
theorem counting_invariant (g p : List Annotation) (t : ℚ) (lab : Label) :
    ((evaluateSingleImage g p t lab).total_ground_truth
      = (evaluateSingleImage g p t lab).true_positives
        + (evaluateSingleImage g p t lab).false_negatives) ∧
    (0 < t →
      countLabel lab p
        = (evaluateSingleImage g p t lab).true_positives
          + (evaluateSingleImage g p t lab).false_positives) := by
  obtain ⟨hk1, hk2, hk3⟩ :=
    fpAux_keeps (evalRun g p t).matched p 0 (evalRun g p t).metrics lab
  constructor
  · rw [evaluateSingleImage_eq_finalize, finalizeMetrics_total,
      finalizeMetrics_tp, finalizeMetrics_fn, hk1, hk2, hk3]
    exact evalRun_total g p t lab
  · intro ht
    rw [evaluateSingleImage_eq_finalize, finalizeMetrics_tp,
      finalizeMetrics_fp, hk1, fpAux_fp, evalRun_fp_zero,
      (evalRun_count g p t ht).2 lab]
    have hsplit := matched_add_unmatched (evalRun g p t).matched lab p 0
    omega

/-- C1 counterexample: with `iouThreshold = 0` and no predictions at all,
the single ground-truth Button is recorded as a true positive (the sentinel
`-1` is claimed), so the Button predictions are not partitioned into
`tp + fp`: there are `0` predictions but `tp + fp = 1`. -/
theorem counting_invariant_cex :
    ¬(countLabel Label.Button []
      = (evaluateSingleImage [sampleAnn "g" 0 0 1 1 Label.Button] [] 0
          Label.Button).true_positives
        + (evaluateSingleImage [sampleAnn "g" 0 0 1 1 Label.Button] [] 0
            Label.Button).false_positives) := by
  decide

/-- C2: the index selected for a ground-truth box is never an index already
claimed by an earlier box, and once claimed (threshold reached) it belongs
to the claimed pool of every later box.  `l1` are the ground-truth boxes
processed before `g` and `l2` those processed after. -/
theorem matching_one_to_one (preds : List Annotation) (t : ℚ)
    (st : EvalState) (l1 l2 : List Annotation) (g : Annotation) :
    (0 ≤ (findBest g preds
        (List.foldl (evalStep preds t) st l1).matched).2 →
      (findBest g preds (List.foldl (evalStep preds t) st l1).matched).2
        ∉ (List.foldl (evalStep preds t) st l1).matched) ∧
    (t ≤ (findBest g preds
        (List.foldl (evalStep preds t) st l1).matched).1 →
      (findBest g preds (List.foldl (evalStep preds t) st l1).matched).2
          ∈ (evalStep preds t (List.foldl (evalStep preds t) st l1)
              g).matched ∧
      (evalStep preds t (List.foldl (evalStep preds t) st l1) g).matched
        ⊆ (List.foldl (evalStep preds t) st (l1 ++ g :: l2)).matched) := by
  constructor
  · intro hge
    obtain ⟨hb1, hb2, hb3, hb4, hb5⟩ :=
      findBest_spec g preds (List.foldl (evalStep preds t) st l1).matched
    rcases hb3 with hnone | ⟨j, hj, hcand, hr1, hr2, hrpos⟩
    · rw [hnone] at hge
      exact absurd hge (by norm_num)
    · rw [hr2]
      exact hcand.2
  · intro hbr
    constructor
    · simp only [evalStep]
      rw [if_pos hbr]
      exact Finset.mem_insert_self _ _
    · rw [List.foldl_append, List.foldl_cons]
      exact foldl_matched_mono preds t l2 _

/-- With no predictions, the scan finds nothing, so for a positive
threshold the ground-truth loop leaves the true-positive counters
untouched. -/
lemma foldl_empty_preds_tp (t : ℚ) (ht : 0 < t) :
    ∀ (l : List Annotation) (st : EvalState) (lab : Label),
    ((List.foldl (evalStep [] t) st l).metrics lab).true_positives
      = (st.metrics lab).true_positives := by
  intro l
  induction l with
  | nil => intro st lab; simp
  | cons g rest ih =>
      intro st lab
      rw [List.foldl_cons, ih]
      have hz : (findBest g [] st.matched).1 = 0 := rfl
      have hneg : ¬(t ≤ (findBest g [] st.matched).1) := by
        rw [hz]
        exact not_le.mpr ht
      simp only [evalStep]
      rw [if_neg hneg]
      by_cases hlg : lab = g.label <;> simp [updateMetrics, hlg]

/-- C8: with an empty predictions sequence and a positive threshold, every
label with at least one ground-truth box gets zero precision, recall and
f1, and all its ground-truth boxes are false negatives. -/
theorem empty_predictions_zero_rates (g : List Annotation) (t : ℚ)
    (lab : Label) (ht : 0 < t)
    (hgt : 1 ≤ (evaluateSingleImage g [] t lab).total_ground_truth) :
    (evaluateSingleImage g [] t lab).precision = 0 ∧
    (evaluateSingleImage g [] t lab).«recall» = 0 ∧
    (evaluateSingleImage g [] t lab).f1_score = 0 ∧
    (evaluateSingleImage g [] t lab).false_negatives
      = (evaluateSingleImage g [] t lab).total_ground_truth := by
  have hfp : (fpAux (evalRun g [] t).matched [] 0 (evalRun g [] t).metrics
      lab) = (evalRun g [] t).metrics lab := rfl
  have htp : ((evalRun g [] t).metrics lab).true_positives = 0 := by
    show ((List.foldl (evalStep [] t) ⟨fun _ => initMetrics, ∅⟩ g).metrics
      lab).true_positives = 0
    rw [foldl_empty_preds_tp t ht]
    rfl
  have hfp0 : ((evalRun g [] t).metrics lab).false_positives = 0 :=
    evalRun_fp_zero g [] t lab
  have htot := evalRun_total g [] t lab
  have hprec : (evaluateSingleImage g [] t lab).precision = 0 := by
    rw [evaluateSingleImage_eq_finalize, hfp, finalizeMetrics_precision,
      htp, hfp0]
    norm_num
  have hrec : (evaluateSingleImage g [] t lab).«recall» = 0 := by
    rw [evaluateSingleImage_eq_finalize, hfp, finalizeMetrics_recall, htp]
    split
    · rfl
    · norm_num
  refine ⟨hprec, hrec, ?_, ?_⟩
  · rw [evaluateSingleImage_eq_finalize, hfp, finalizeMetrics_f1]
    rw [evaluateSingleImage_eq_finalize, hfp] at hprec hrec
    rw [hprec, hrec]
    norm_num
  · rw [evaluateSingleImage_eq_finalize, hfp, finalizeMetrics_fn,
      finalizeMetrics_total]
    omega

/-- For a non-positive threshold the initial best value `0` passes the
threshold test, so every ground-truth box takes the true-positive branch. -/
lemma foldl_nonpos_threshold (p : List Annotation) (t : ℚ) (ht : t ≤ 0) :
    ∀ (l : List Annotation) (st : EvalState) (lab : Label),
    ((List.foldl (evalStep p t) st l).metrics lab).false_negatives
      = (st.metrics lab).false_negatives ∧
    ((List.foldl (evalStep p t) st l).metrics lab).total_ground_truth
        + (st.metrics lab).true_positives
      = ((List.foldl (evalStep p t) st l).metrics lab).true_positives
        + (st.metrics lab).total_ground_truth := by
  intro l
  induction l with
  | nil =>
      intro st lab
      exact ⟨rfl, Nat.add_comm _ _⟩
  | cons gb rest ih =>
      intro st lab
      rw [List.foldl_cons]
      obtain ⟨i1, i2⟩ := ih (evalStep p t st gb) lab
      have hpos : t ≤ (findBest gb p st.matched).1 :=
        le_trans ht (findBest_spec gb p st.matched).1
      by_cases hlg : lab = gb.label
      · have e1 : ((evalStep p t st gb).metrics lab).total_ground_truth
            = (st.metrics lab).total_ground_truth + 1 := by
          simp only [evalStep]
          rw [if_pos hpos]
          simp [updateMetrics, hlg]
        have e2 : ((evalStep p t st gb).metrics lab).true_positives
            = (st.metrics lab).true_positives + 1 := by
          simp only [evalStep]
          rw [if_pos hpos]
          simp [updateMetrics, hlg]
        have e3 : ((evalStep p t st gb).metrics lab).false_negatives
            = (st.metrics lab).false_negatives := by
          simp only [evalStep]
          rw [if_pos hpos]
          simp [updateMetrics, hlg]
        rw [e3] at i1
        rw [e1, e2] at i2
        exact ⟨i1, by omega⟩
      · have e1 : ((evalStep p t st gb).metrics lab).total_ground_truth
            = (st.metrics lab).total_ground_truth := by
          simp only [evalStep]
          rw [if_pos hpos]
          simp [updateMetrics, hlg]
        have e2 : ((evalStep p t st gb).metrics lab).true_positives
            = (st.metrics lab).true_positives := by
          simp only [evalStep]
          rw [if_pos hpos]
          simp [updateMetrics, hlg]
        have e3 : ((evalStep p t st gb).metrics lab).false_negatives
            = (st.metrics lab).false_negatives := by
          simp only [evalStep]
          rw [if_pos hpos]
          simp [updateMetrics, hlg]
        rw [e3] at i1
        rw [e1, e2] at i2
        exact ⟨i1, by omega⟩

/-- C9: with a non-positive threshold every ground-truth box is recorded as
a true positive and none as a false negative; with no predictions at all
the sentinel index `-1` is inserted into the claimed set. -/
theorem nonpos_threshold_all_true_positive (g p : List Annotation) (t : ℚ)
    (ht : t ≤ 0) :
    (∀ lab, (evaluateSingleImage g p t lab).true_positives
        = (evaluateSingleImage g p t lab).total_ground_truth ∧
      (evaluateSingleImage g p t lab).false_negatives = 0) ∧
    (g ≠ [] → p = [] → (-1 : ℤ) ∈ (evalRun g p t).matched) := by
  constructor
  · intro lab
    obtain ⟨hk1, hk2, hk3⟩ :=
      fpAux_keeps (evalRun g p t).matched p 0 (evalRun g p t).metrics lab
    have hrun : ((evalRun g p t).metrics lab).false_negatives = 0 ∧
        ((evalRun g p t).metrics lab).total_ground_truth
          = ((evalRun g p t).metrics lab).true_positives := by
      have h := foldl_nonpos_threshold p t ht g
        ⟨fun _ => initMetrics, ∅⟩ lab
      constructor
      · exact h.1
      · have := h.2
        simpa using this
    constructor
    · rw [evaluateSingleImage_eq_finalize, finalizeMetrics_tp,
        finalizeMetrics_total, hk1, hk3, hrun.2]
    · rw [evaluateSingleImage_eq_finalize, finalizeMetrics_fn, hk2, hrun.1]
  · intro hg hp
    subst hp
    cases g with
    | nil => exact absurd rfl hg
    | cons g0 rest =>
        show (-1 : ℤ) ∈ (List.foldl (evalStep [] t)
          ⟨fun _ => initMetrics, ∅⟩ (g0 :: rest)).matched
        rw [List.foldl_cons]
        refine Finset.mem_of_subset (foldl_matched_mono [] t rest _) ?_
        have hc : t ≤ (findBest g0 []
            ((⟨fun _ => initMetrics, ∅⟩ : EvalState)).matched).1 := by
          have hz : (findBest g0 []
            ((⟨fun _ => initMetrics, ∅⟩ : EvalState)).matched).1 = 0 := rfl
          rw [hz]
          exact ht
        simp only [evalStep]
        rw [if_pos hc]
        show (-1 : ℤ) ∈ insert (findBest g0 [] (∅ : Finset ℤ)).2
          (∅ : Finset ℤ)
        have hz2 : (findBest g0 [] (∅ : Finset ℤ)).2 = -1 := rfl
        rw [hz2]
        exact Finset.mem_insert_self _ _

/-- C4: in every scan, every candidate's IoU is at most the selected best
value, every candidate strictly before the selected index has a strictly
smaller IoU (so equal-IoU ties go to the earliest index), and the selected
index, when real, is a candidate achieving the best value.  Concretely, for
one ground-truth box and two identical candidate predictions (equal IoU `1`
above the threshold `1/2`), the earlier prediction is claimed as the unique
true positive and the later becomes a false positive. -/
theorem best_match_tie_break :
    (∀ (gt : Annotation) (preds : List Annotation) (matched : Finset ℤ)
        (j : ℕ) (hj : j < preds.length),
      isCand gt matched (preds.get ⟨j, hj⟩) j →
        calculateIoU gt.toBox (preds.get ⟨j, hj⟩).toBox
          ≤ (findBest gt preds matched).1) ∧
    (∀ (gt : Annotation) (preds : List Annotation) (matched : Finset ℤ)
        (j : ℕ) (hj : j < preds.length),
      isCand gt matched (preds.get ⟨j, hj⟩) j →
        (j : ℤ) < (findBest gt preds matched).2 →
        calculateIoU gt.toBox (preds.get ⟨j, hj⟩).toBox
          < (findBest gt preds matched).1) ∧
    (∀ (gt : Annotation) (preds : List Annotation) (matched : Finset ℤ),
      0 ≤ (findBest gt preds matched).2 →
      ∃ (j : ℕ) (hj : j < preds.length),
        (findBest gt preds matched).2 = (j : ℤ) ∧
        isCand gt matched (preds.get ⟨j, hj⟩) j ∧
        (findBest gt preds matched).1
          = calculateIoU gt.toBox (preds.get ⟨j, hj⟩).toBox) ∧
    ((evaluateSingleImage [sampleAnn "g" 0 0 4 4 Label.Button]
        [sampleAnn "p0" 0 0 4 4 Label.Button,
         sampleAnn "p1" 0 0 4 4 Label.Button] (1/2)
        Label.Button).true_positives = 1 ∧
      (evaluateSingleImage [sampleAnn "g" 0 0 4 4 Label.Button]
        [sampleAnn "p0" 0 0 4 4 Label.Button,
         sampleAnn "p1" 0 0 4 4 Label.Button] (1/2)
        Label.Button).false_positives = 1 ∧
      (evalRun [sampleAnn "g" 0 0 4 4 Label.Button]
        [sampleAnn "p0" 0 0 4 4 Label.Button,
         sampleAnn "p1" 0 0 4 4 Label.Button] (1/2)).matched = {0}) := by
  refine ⟨?_, ?_, ?_, ?_⟩
  · intro gt preds matched j hj hcand
    exact (findBest_spec gt preds matched).2.2.2.1 j hj hcand
  · intro gt preds matched j hj hcand hjlt
    exact (findBest_spec gt preds matched).2.2.2.2 j hj hcand hjlt
  · intro gt preds matched hge
    obtain ⟨hb1, hb2, hb3, hb4, hb5⟩ := findBest_spec gt preds matched
    rcases hb3 with hnone | ⟨j, hj, hcand, hr1, hr2, hrpos⟩
    · rw [hnone] at hge
      exact absurd hge (by norm_num)
    · exact ⟨j, hj, hr2, hcand, hr1⟩
  · norm_num [evaluateSingleImage, evalRun, evalStep, findBest, findBestAux,
      fpAux, updateMetrics, finalizeMetrics, calculateIoU, unionArea,
      intersectionArea, xOverlap, yOverlap, sampleAnn, initMetrics]

lemma sameBoxLabel_spec {a b : Annotation} (h : SameBoxLabel a b) :
    a.toBox = b.toBox ∧ a.label = b.label := by
  obtain ⟨h1, h2, h3, h4, h5⟩ := h
  obtain ⟨⟨ax, ay, aw, ah⟩, aid, al⟩ := a
  obtain ⟨⟨cx, cy, cw, ch⟩, cid, cl⟩ := b
  simp only at h1 h2 h3 h4 h5
  subst h1
  subst h2
  subst h3
  subst h4
  subst h5
  exact ⟨rfl, rfl⟩

lemma findBestAux_congr (gt1 gt2 : Annotation) (hgb : gt1.toBox = gt2.toBox)
    (hgl : gt1.label = gt2.label) (matched : Finset ℤ) :
    ∀ {l1 l2 : List Annotation}, List.Forall₂ SameBoxLabel l1 l2 →
    ∀ (i : ℕ) (best : ℚ × ℤ),
      findBestAux gt1 matched l1 i best
        = findBestAux gt2 matched l2 i best := by
  intro l1 l2 hf
  induction hf with
  | nil => intro i best; rfl
  | cons hpq hrest ih =>
      intro i best
      obtain ⟨hbox, hlab⟩ := sameBoxLabel_spec hpq
      simp only [findBestAux]
      rw [hbox, hlab, hgb, hgl, ih]

lemma evalStep_congr (p1 p2 : List Annotation)
    (hp : List.Forall₂ SameBoxLabel p1 p2) (t : ℚ) (st : EvalState)
    (g1 g2 : Annotation) (hg : SameBoxLabel g1 g2) :
    evalStep p1 t st g1 = evalStep p2 t st g2 := by
  obtain ⟨hgb, hgl⟩ := sameBoxLabel_spec hg
  have hfb : findBest g1 p1 st.matched = findBest g2 p2 st.matched := by
    unfold findBest
    exact findBestAux_congr g1 g2 hgb hgl st.matched hp 0 (0, -1)
  simp only [evalStep]
  rw [hfb, hgl]

lemma foldl_eval_congr (p1 p2 : List Annotation)
    (hp : List.Forall₂ SameBoxLabel p1 p2) (t : ℚ) :
    ∀ {g1 g2 : List Annotation}, List.Forall₂ SameBoxLabel g1 g2 →
    ∀ st : EvalState,
      List.foldl (evalStep p1 t) st g1 = List.foldl (evalStep p2 t) st g2 := by
  intro g1 g2 hf
  induction hf with
  | nil => intro st; rfl
  | cons hab hrest ih =>
      intro st
      rw [List.foldl_cons, List.foldl_cons,
        evalStep_congr p1 p2 hp t st _ _ hab, ih]

lemma fpAux_congr (matched : Finset ℤ) :
    ∀ {l1 l2 : List Annotation}, List.Forall₂ SameBoxLabel l1 l2 →
    ∀ (i : ℕ) (ms : Label → Metrics) (lab : Label),
      fpAux matched l1 i ms lab = fpAux matched l2 i ms lab := by
  intro l1 l2 hf
  induction hf with
  | nil => intro i ms lab; rfl
  | cons hpq hrest ih =>
      intro i ms lab
      obtain ⟨hbox, hlab⟩ := sameBoxLabel_spec hpq
      simp only [fpAux]
      rw [hlab, ih]

/-- C10: the evaluation never reads the `id` fields: two runs whose inputs
agree on `x`, `y`, `width`, `height` and `label` at every position, with the
same threshold, return identical per-label metrics. -/
theorem result_independent_of_ids (g1 g2 p1 p2 : List Annotation) (t : ℚ)
    (hg : List.Forall₂ SameBoxLabel g1 g2)
    (hp : List.Forall₂ SameBoxLabel p1 p2) (lab : Label) :
    evaluateSingleImage g1 p1 t lab = evaluateSingleImage g2 p2 t lab := by
  have hrun : evalRun g1 p1 t = evalRun g2 p2 t := by
    unfold evalRun
    exact foldl_eval_congr p1 p2 hp t hg _
  rw [evaluateSingleImage_eq_finalize, evaluateSingleImage_eq_finalize,
    hrun, fpAux_congr (evalRun g2 p2 t).matched hp 0
      (evalRun g2 p2 t).metrics lab]

/-! ### Closed witnesses instantiating the theorems above -/

/-- Witness for C1 at a concrete run with one perfectly matching
prediction and threshold `2`. -/
theorem counting_invariant_witness :
    0 < (2 : ℚ) ∧
    countLabel Label.Button [sampleAnn "p" 0 0 4 4 Label.Button]
      = (evaluateSingleImage [sampleAnn "g" 0 0 4 4 Label.Button]
          [sampleAnn "p" 0 0 4 4 Label.Button] 2 Label.Button).true_positives
        + (evaluateSingleImage [sampleAnn "g" 0 0 4 4 Label.Button]
            [sampleAnn "p" 0 0 4 4 Label.Button] 2
            Label.Button).false_positives :=
  ⟨by decide,
   (counting_invariant [sampleAnn "g" 0 0 4 4 Label.Button]
      [sampleAnn "p" 0 0 4 4 Label.Button] 2 Label.Button).2 (by decide)⟩

/-- Witness for C2: with an empty prefix, one prediction and threshold
`1/2`, the selected index is unclaimed and is claimed right after. -/
theorem matching_one_to_one_witness :
    (findBest (sampleAnn "g" 0 0 4 4 Label.Button)
        [sampleAnn "p" 0 0 4 4 Label.Button]
        (List.foldl (evalStep [sampleAnn "p" 0 0 4 4 Label.Button] (1/2))
          ⟨fun _ => initMetrics, ∅⟩ []).matched).2
      ∉ (List.foldl (evalStep [sampleAnn "p" 0 0 4 4 Label.Button] (1/2))
          ⟨fun _ => initMetrics, ∅⟩ []).matched ∧
    (findBest (sampleAnn "g" 0 0 4 4 Label.Button)
        [sampleAnn "p" 0 0 4 4 Label.Button]
        (List.foldl (evalStep [sampleAnn "p" 0 0 4 4 Label.Button] (1/2))
          ⟨fun _ => initMetrics, ∅⟩ []).matched).2
      ∈ (evalStep [sampleAnn "p" 0 0 4 4 Label.Button] (1/2)
          (List.foldl (evalStep [sampleAnn "p" 0 0 4 4 Label.Button] (1/2))
            ⟨fun _ => initMetrics, ∅⟩ [])
          (sampleAnn "g" 0 0 4 4 Label.Button)).matched :=
  ⟨(matching_one_to_one [sampleAnn "p" 0 0 4 4 Label.Button] (1/2)
      ⟨fun _ => initMetrics, ∅⟩ [] [] (sampleAnn "g" 0 0 4 4 Label.Button)).1
    (by simp [findBest, findBestAux, calculateIoU, unionArea,
      intersectionArea, xOverlap, yOverlap, sampleAnn]),
   ((matching_one_to_one [sampleAnn "p" 0 0 4 4 Label.Button] (1/2)
      ⟨fun _ => initMetrics, ∅⟩ [] [] (sampleAnn "g" 0 0 4 4 Label.Button)).2
    (by norm_num [findBest, findBestAux, calculateIoU, unionArea,
      intersectionArea, xOverlap, yOverlap, sampleAnn])).1⟩

/-- Witness for C4 at a concrete scan with a single candidate. -/
theorem best_match_tie_break_witness :
    calculateIoU (sampleAnn "g" 0 0 4 4 Label.Button).toBox
        (([sampleAnn "p" 0 0 4 4 Label.Button]).get
          ⟨0, Nat.zero_lt_one⟩).toBox
      ≤ (findBest (sampleAnn "g" 0 0 4 4 Label.Button)
          [sampleAnn "p" 0 0 4 4 Label.Button] (∅ : Finset ℤ)).1 :=
  best_match_tie_break.1 (sampleAnn "g" 0 0 4 4 Label.Button)
    [sampleAnn "p" 0 0 4 4 Label.Button] (∅ : Finset ℤ) 0 Nat.zero_lt_one
    ⟨rfl, Finset.not_mem_empty (0 : ℤ)⟩

/-- Witness for C6 at the degenerate all-zero box, whose union area is
exactly zero. -/
theorem division_by_zero_guards_witness :
    unionArea ⟨0, 0, 0, 0⟩ ⟨0, 0, 0, 0⟩ = 0 ∧
    calculateIoU ⟨0, 0, 0, 0⟩ ⟨0, 0, 0, 0⟩ = 0 :=
  ⟨by norm_num [unionArea, intersectionArea, xOverlap, yOverlap],
   division_by_zero_guards.1 ⟨0, 0, 0, 0⟩ ⟨0, 0, 0, 0⟩
     (by norm_num [unionArea, intersectionArea, xOverlap, yOverlap])⟩

/-- Witness for C8 at one ground-truth box, no predictions, threshold `2`. -/
theorem empty_predictions_zero_rates_witness :
    (evaluateSingleImage [sampleAnn "g" 0 0 4 4 Label.Button] [] 2
      Label.Button).precision = 0 ∧
    (evaluateSingleImage [sampleAnn "g" 0 0 4 4 Label.Button] [] 2
      Label.Button).«recall» = 0 ∧
    (evaluateSingleImage [sampleAnn "g" 0 0 4 4 Label.Button] [] 2
      Label.Button).f1_score = 0 ∧
    (evaluateSingleImage [sampleAnn "g" 0 0 4 4 Label.Button] [] 2
        Label.Button).false_negatives
      = (evaluateSingleImage [sampleAnn "g" 0 0 4 4 Label.Button] [] 2
          Label.Button).total_ground_truth :=
  empty_predictions_zero_rates [sampleAnn "g" 0 0 4 4 Label.Button] 2
    Label.Button (by decide) (by decide)

/-- Witness for C9 at one ground-truth box, no predictions, threshold `0`. -/
theorem nonpos_threshold_witness :
    (evaluateSingleImage [sampleAnn "g" 0 0 4 4 Label.Button] [] 0
        Label.Button).true_positives
      = (evaluateSingleImage [sampleAnn "g" 0 0 4 4 Label.Button] [] 0
          Label.Button).total_ground_truth ∧
    (-1 : ℤ) ∈ (evalRun [sampleAnn "g" 0 0 4 4 Label.Button] [] 0).matched :=
  ⟨((nonpos_threshold_all_true_positive
      [sampleAnn "g" 0 0 4 4 Label.Button] [] 0 (by decide)).1
        Label.Button).1,
   (nonpos_threshold_all_true_positive
      [sampleAnn "g" 0 0 4 4 Label.Button] [] 0 (by decide)).2
     (by simp) rfl⟩

/-- Witness for C10: identical geometry, different ids. -/
theorem result_independent_of_ids_witness :
    evaluateSingleImage [sampleAnn "a" 0 0 4 4 Label.Button] [] 3
        Label.Button
      = evaluateSingleImage [sampleAnn "b" 0 0 4 4 Label.Button] [] 3
          Label.Button :=
  result_independent_of_ids [sampleAnn "a" 0 0 4 4 Label.Button]
    [sampleAnn "b" 0 0 4 4 Label.Button] [] [] 3
    (by simp [SameBoxLabel, sampleAnn]) List.Forall₂.nil Label.Button

end LabelPlatform
